import Mathlib

/-!
Shallow embedding of the query-processing core of the NLP-Query-Engine
repository (backend/services/query_engine.py, text_to_sql.py,
document_processor.py, schema_discovery.py, backend/core/cache.py), together
with theorems settling the frozen claims about it.

Conventions of the embedding:
- Python strings are Lean `String`s; `str.lower()/.upper()/.strip()` are
  modelled at ASCII (`pyLower`, `pyUpper`, `pyStrip`), which agrees with
  Python on all ASCII input (every concrete string in the claims is ASCII).
- The substring operator `in` is `strContains` (list-infix on characters),
  `str.startswith` is `strStartsWith`.
- Python dicts that preserve insertion order (CPython) are association
  lists; `defaultdict(list)` append is `idxAppend`, lookup is `idxLookup`.
- `sorted(..., reverse=True)` by score, being a stable sort, is
  `List.insertionSort` with the non-strict descending relation `scoreGe`;
  Mathlib insertion sort is stable, so it produces exactly the list CPython
  produces.
- Fallible operations (file reads, the external SQL generator, awaited
  handlers) are `Except String`-valued oracles passed as parameters.
-/

set_option maxRecDepth 8000

namespace NLPQuery

/-! ### ASCII string primitives (Python str methods restricted to ASCII) -/

/-- Lowercase one character, as Python `str.lower` does on ASCII. -/
def lowerChar (c : Char) : Char :=
  if c.isUpper then Char.ofNat (c.toNat + 32) else c

/-- Uppercase one character, as Python `str.upper` does on ASCII. -/
def upperChar (c : Char) : Char :=
  if c.isLower then Char.ofNat (c.toNat - 32) else c

/-- Python `s.lower()` on ASCII input. -/
def pyLower (s : String) : String := ⟨s.data.map lowerChar⟩

/-- Python `s.upper()` on ASCII input. -/
def pyUpper (s : String) : String := ⟨s.data.map upperChar⟩

/-- Python whitespace as used by `str.strip()` (ASCII part). -/
def isPyWs (c : Char) : Bool :=
  c == ' ' || c == '\t' || c == '\n' || c == '\r' ||
  c == Char.ofNat 11 || c == Char.ofNat 12

/-- Python `s.strip()` on ASCII input. -/
def pyStrip (s : String) : String :=
  ⟨((s.data.dropWhile isPyWs).reverse.dropWhile isPyWs).reverse⟩

/-- Python `sub in s` substring test. -/
def strContains (s sub : String) : Bool := decide (sub.data <:+: s.data)

/-- Python `s.startswith(pre)`. -/
def strStartsWith (s pre : String) : Bool := pre.data.isPrefixOf s.data

/-- Split a character list on a separator character, Python `str.split(sep)`
    semantics for a one-character separator (an empty input gives `[[]]`). -/
def splitOnChar (sep : Char) (l : List Char) : List (List Char) :=
  l.foldr
    (fun c acc =>
      match acc with
      | [] => if c == sep then [[], []] else [[c]]
      | cur :: rest => if c == sep then [] :: cur :: rest else (c :: cur) :: rest)
    [[]]

/-! ### Query classification (QueryEngine._classify_query) -/

/-- SQL-intent phrase list, verbatim from `query_engine.py`. -/
def sqlKeywords : List String :=
  ["how many", "count", "average", "total", "sum",
   "list all", "show me", "find employees", "department",
   "salary", "highest", "lowest", "hired"]

/-- Document-intent phrase list, verbatim from `query_engine.py`. -/
def docKeywords : List String :=
  ["skills", "experience", "resume", "review",
   "performance", "feedback", "qualified", "expertise",
   "python", "javascript", "java"]

/-- Count of SQL-intent phrases occurring in the lowercased query. -/
def sqlScore (q : String) : Nat :=
  (sqlKeywords.filter (fun kw => strContains (pyLower q) kw)).length

/-- Count of document-intent phrases occurring in the lowercased query. -/
def docScore (q : String) : Nat :=
  (docKeywords.filter (fun kw => strContains (pyLower q) kw)).length

/-- The classifier `QueryEngine._classify_query`, translated clause by
    clause from the source. -/
def classifyQuery (q : String) : String :=
  if 0 < sqlScore q ∧ 0 < docScore q then "hybrid"
  else if docScore q < sqlScore q then "sql"
  else if 0 < docScore q then "document"
  else "sql"

/-- The classification decision rule exactly as the specification words it:
    both scores positive gives hybrid, a strictly larger sql score gives sql,
    a positive document score gives document, and sql is the default. Used to
    compare the spec wording with the code. -/
def specClassify (q : String) : String :=
  if 0 < sqlScore q ∧ 0 < docScore q then "hybrid"
  else if docScore q < sqlScore q then "sql"
  else if 0 < docScore q then "document"
  else "sql"

/-- The example query containing an apostrophe, built explicitly. -/
def candidateSkillsQuery : String :=
  "what are this candidate" ++ ⟨[Char.ofNat 39]⟩ ++ "s skills"

/-! ### SQL validation (TextToSQLConverter._validate_sql / _optimize_sql) -/

/-- Dangerous-keyword list, verbatim from `text_to_sql.py`. -/
def dangerousKeywords : List String :=
  ["DROP", "DELETE", "TRUNCATE", "ALTER", "CREATE", "UPDATE"]

/-- The validator `_validate_sql`, translated clause by clause: empty input
    is rejected, then the dangerous keywords are tried in order against the
    uppercased statement, then the statement must start with SELECT after
    stripping whitespace. -/
def validateSql (sql : String) : Bool × String :=
  if sql = "" then (false, "Empty SQL query")
  else
    match dangerousKeywords.find? (fun kw => strContains (pyUpper sql) kw) with
    | some kw => (false, "Dangerous operation: " ++ kw)
    | none =>
      if !(strStartsWith (pyStrip (pyUpper sql)) "SELECT") then
        (false, "Query must start with SELECT")
      else (true, "")

/-- The optimizer `_optimize_sql`: append LIMIT 100 when no LIMIT occurs,
    stripping any trailing semicolons first. -/
def optimizeSql (sql : String) : String :=
  if strContains (pyUpper sql) "LIMIT" then sql
  else ⟨(sql.data.reverse.dropWhile (· == ';')).reverse⟩ ++ " LIMIT 100;"

/-- The rejection condition exactly as the claim words it: empty, or a
    dangerous keyword occurs case-insensitively anywhere, or the statement
    does not start with SELECT after trimming whitespace. -/
def specRejectsSql (sql : String) : Bool :=
  sql == "" ||
  dangerousKeywords.any (fun kw => strContains (pyUpper sql) kw) ||
  !(strStartsWith (pyStrip (pyUpper sql)) "SELECT")

/-! ### Table purpose inference (SchemaDiscovery._infer_table_purpose) -/

/-- Purpose classifier from `schema_discovery.py`. The source also computes
    the lowercased column names and never uses them; the `columns` parameter
    is kept for the same shape. -/
def inferTablePurpose (tableName : String) (columns : List String) : String :=
  let nameLower := pyLower tableName
  let _ := columns.map pyLower
  if ["employee", "staff", "personnel", "emp"].any (fun t => strContains nameLower t) then
    "Employee information"
  else if ["department", "dept", "division"].any (fun t => strContains nameLower t) then
    "Department/organizational structure"
  else if ["salary", "compensation", "pay"].any (fun t => strContains nameLower t) then
    "Salary and compensation data"
  else if ["document", "file", "attachment"].any (fun t => strContains nameLower t) then
    "Document storage"
  else "General data table"

/-- The keyword groups exactly as the claim lists them (no `emp`, no
    `dept`), used to compare the claim wording with the code. -/
def specTablePurpose (tableName : String) : String :=
  let nameLower := pyLower tableName
  if ["employee", "staff", "personnel"].any (fun t => strContains nameLower t) then
    "Employee information"
  else if ["department", "division"].any (fun t => strContains nameLower t) then
    "Department/organizational structure"
  else if ["salary", "compensation", "pay"].any (fun t => strContains nameLower t) then
    "Salary and compensation data"
  else if ["document", "file", "attachment"].any (fun t => strContains nameLower t) then
    "Document storage"
  else "General data table"

/-- The amended keyword groups (first group also holds `emp`, second also
    `dept`), in tie-break order, as category table. -/
def purposeCategories : List (List String × String) :=
  [(["employee", "staff", "personnel", "emp"], "Employee information"),
   (["department", "dept", "division"], "Department/organizational structure"),
   (["salary", "compensation", "pay"], "Salary and compensation data"),
   (["document", "file", "attachment"], "Document storage")]

/-- Purpose classification as the amended claim words it: first category in
    the table whose keyword group matches the lowercased name wins, with a
    general default. -/
def amendedTablePurpose (tableName : String) : String :=
  match purposeCategories.find?
      (fun c => c.1.any (fun t => strContains (pyLower tableName) t)) with
  | some c => c.2
  | none => "General data table"

/-! ### Keyword extraction (KeywordDocumentProcessor._extract_keywords) -/

/-- Word characters of the regex engine (ASCII part of Python `\w`). -/
def isWordChar (c : Char) : Bool := c.isAlpha || c.isDigit || c == '_'

/-- Accumulator pass splitting a character list into its maximal runs of
    word characters: the first component is the run currently open at the
    left end, the second the completed runs to its right. -/
def runsAux (l : List Char) : List Char × List (List Char) :=
  l.foldr
    (fun c acc =>
      if isWordChar c then (c :: acc.1, acc.2)
      else ([], if acc.1.isEmpty then acc.2 else acc.1 :: acc.2))
    ([], [])

/-- Maximal runs of word characters of a character list, left to right. -/
def wordRuns (l : List Char) : List (List Char) :=
  if (runsAux l).1.isEmpty then (runsAux l).2 else (runsAux l).1 :: (runsAux l).2

/-- Matches of `re.findall(r'\b[a-zA-Z]{3,}\b', text.lower())`, in order. A
    maximal word-character run matches exactly when it consists of letters
    only and has length at least 3: the surrounding positions are word
    boundaries, and no boundary exists inside a run, so a run adjacent to a
    digit or underscore yields no match at all. -/
def pyFindallTokens (text : String) : List String :=
  ((wordRuns (pyLower text).data).filter
    (fun r => r.all Char.isAlpha && decide (3 ≤ r.length))).map (fun r => ⟨r⟩)

/-- Stopword set, verbatim from `document_processor.py`. -/
def stopwords : List String :=
  ["the", "is", "at", "which", "on", "and", "a", "an", "as", "are",
   "was", "were", "been", "be", "have", "has", "had", "do", "does",
   "did", "will", "would", "should", "could", "may", "might", "must",
   "can", "this", "that", "these", "those", "with", "from", "for",
   "but", "not", "all", "any", "some", "such", "into", "just", "than",
   "very", "too", "also", "only", "then", "when", "where", "how", "why"]

/-- Deduplication keeping first occurrences. The source builds a Python set
    (whose contents are exactly these elements and whose iteration order is
    unspecified); the embedding fixes first-occurrence order as the
    representative enumeration. -/
def dedupKeepFirst (l : List String) : List String :=
  l.foldl (fun acc w => if w ∈ acc then acc else acc ++ [w]) []

/-- The extractor `_extract_keywords`: tokens of the lowered text, minus
    stopwords and tokens of length at most 2, as a duplicate-free list. -/
def extractKeywords (text : String) : List String :=
  dedupKeepFirst ((pyFindallTokens text).filter
    (fun w => !(stopwords.contains w) && decide (2 < w.length)))

/-! ### Document store and ingestion (KeywordDocumentProcessor) -/

/-- One stored document, the dict built in `process_documents`. -/
structure Document where
  id : Nat
  file : String
  text : String
  keywords : List String
  preview : String
deriving DecidableEq

/-- The inverted index `keyword_index`, a `defaultdict(list)` in insertion
    order. -/
abbrev KwIndex := List (String × List Nat)

/-- Dictionary lookup (first matching key). -/
def idxLookup : KwIndex → String → Option (List Nat)
  | [], _ => none
  | (k, ids) :: rest, key => if k = key then some ids else idxLookup rest key

/-- The `defaultdict` update `index[key].append(d)`: append to the entry of
    the key when present, else create the entry at the end. -/
def idxAppend : KwIndex → String → Nat → KwIndex
  | [], key, d => [(key, [d])]
  | (k, ids) :: rest, key, d =>
    if k = key then (k, ids ++ [d]) :: rest else (k, ids) :: idxAppend rest key d

/-- In-memory state of the processor: document list and inverted index. -/
structure ProcState where
  documents : List Document
  keywordIndex : KwIndex
deriving DecidableEq

/-- The per-file entry appended to `results["documents"]`. -/
structure FileOutcome where
  file : String
  keywordsFound : Nat
deriving DecidableEq

/-- The result dict of `process_documents`. -/
structure BatchResults where
  processed : Nat
  failed : Nat
  totalDocuments : Nat
  documents : List FileOutcome
deriving DecidableEq

/-- Python `os.path.basename` for slash-separated paths. -/
def basename (p : String) : String := ⟨(splitOnChar '/' p.data).getLastD []⟩

/-- The extension computed by `_extract_text`: the part after the last dot,
    lowercased (for a dotless name this is the whole name). -/
def fileExt (p : String) : String := pyLower ⟨(splitOnChar '.' p.data).getLastD []⟩

/-- The dispatcher `_extract_text`. The format readers (`_extract_pdf`,
    `_extract_docx`, `_extract_txt`) perform file input, which the embedding
    models as an oracle `reader` from format and path to extracted text or a
    raised error; an unsupported extension raises `ValueError`. -/
def extractText (reader : String → String → Except String String)
    (path : String) : Except String String :=
  let ext := fileExt path
  if ext = "pdf" then reader "pdf" path
  else if ext = "docx" then reader "docx" path
  else if ext = "txt" then reader "txt" path
  else Except.error ("Unsupported file type: " ++ ext)

/-- The fresh results dict `process_documents` starts from. -/
def emptyBatchResults : BatchResults :=
  { processed := 0, failed := 0, totalDocuments := 0, documents := [] }

/-- The loop body of `process_documents` for one file: on successful
    extraction store the document under the next sequential id, append that
    id to the posting list of every extracted keyword and count the file as
    processed; on any raised error only count it as failed. -/
def processOne (reader : String → String → Except String String)
    (st : ProcState) (res : BatchResults) (path : String) :
    ProcState × BatchResults :=
  match extractText reader path with
  | Except.error _ => (st, { res with failed := res.failed + 1 })
  | Except.ok text =>
    let kws := extractKeywords text
    let docId := st.documents.length
    let doc : Document :=
      { id := docId, file := basename path, text := text, keywords := kws,
        preview := if 200 < text.length then text.take 200 ++ "..." else text }
    let idx := kws.foldl (fun ix kw => idxAppend ix (pyLower kw) docId) st.keywordIndex
    ({ documents := st.documents ++ [doc], keywordIndex := idx },
     { res with
        processed := res.processed + 1,
        documents := res.documents ++ [{ file := basename path, keywordsFound := kws.length }] })

/-- The batch loop `process_documents` (persistence of the index is file
    output, outside the state modelled here). -/
def processDocuments (reader : String → String → Except String String)
    (st : ProcState) (paths : List String) : ProcState × BatchResults :=
  let out := paths.foldl (fun acc p => processOne reader acc.1 acc.2 p)
    (st, emptyBatchResults)
  (out.1, { out.2 with totalDocuments := out.1.documents.length })

/-! ### Search (KeywordDocumentProcessor.search) -/

/-- The `doc_scores[doc_id] += 1` update on an insertion-ordered counter
    dict. -/
def bump : List (Nat × Nat) → Nat → List (Nat × Nat)
  | [], d => [(d, 1)]
  | (k, v) :: rest, d =>
    if k = d then (k, v + 1) :: rest else (k, v) :: bump rest d

/-- The score-collection loop of `search`: for each query keyword present in
    the index, bump every posted document id. -/
def collectScores (idx : KwIndex) (qkws : List String) : List (Nat × Nat) :=
  qkws.foldl
    (fun sc kw =>
      match idxLookup idx (pyLower kw) with
      | none => sc
      | some ids => ids.foldl bump sc)
    []

/-- Descending-score comparison used for `sorted(..., key=score,
    reverse=True)`; non-strict, so that the stable insertion sort reproduces
    the stable Python sort exactly. -/
def scoreGe (a b : Nat × Nat) : Prop := b.2 ≤ a.2

instance : DecidableRel scoreGe := fun a b => inferInstanceAs (Decidable (b.2 ≤ a.2))

instance : IsTotal (Nat × Nat) scoreGe := ⟨fun a b => Nat.le_total b.2 a.2⟩

instance : IsTrans (Nat × Nat) scoreGe := ⟨fun _ _ _ hab hbc => Nat.le_trans hbc hab⟩

/-- One search hit: the copied document dict with the two added keys. -/
structure SearchResult where
  doc : Document
  matchScore : Nat
  matchedKeywords : List String
deriving DecidableEq

/-- The search pipeline of `KeywordDocumentProcessor.search`: extract query
    keywords (empty set short-circuits), collect scores, sort stably by
    descending score, truncate to `top_k`, and decorate each surviving
    document with its score and matched keywords. -/
def search (st : ProcState) (q : String) (topK : Nat) : List SearchResult :=
  let qkws := extractKeywords q
  if qkws.isEmpty then []
  else
    ((List.insertionSort scoreGe (collectScores st.keywordIndex qkws)).take topK).filterMap
      (fun p =>
        if h : p.1 < st.documents.length then
          let doc := st.documents.get ⟨p.1, h⟩
          some { doc := doc, matchScore := p.2,
                 matchedKeywords :=
                   qkws.filter (fun kw => doc.keywords.contains (pyLower kw)) }
        else none)

/-- Membership of a document id in the posting list of a keyword. -/
def postingHas (idx : KwIndex) (kw : String) (d : Nat) : Bool :=
  match idxLookup idx (pyLower kw) with
  | none => false
  | some ids => ids.contains d

/-- Multiplicity of a document id in the posting list of a keyword. -/
def postingCount (idx : KwIndex) (kw : String) (d : Nat) : Nat :=
  match idxLookup idx (pyLower kw) with
  | none => 0
  | some ids => ids.count d

/-- Total number of bumps a document id receives for a query keyword list. -/
def keywordHits (idx : KwIndex) (qkws : List String) (d : Nat) : Nat :=
  (qkws.map (fun kw => postingCount idx kw d)).sum

/-- Accumulated score of a document id in a counter dict. -/
def scoreVal (l : List (Nat × Nat)) (d : Nat) : Nat :=
  ((l.filter (fun p => p.1 == d)).map Prod.snd).sum

/-- The adjacent ordering the claim asserts of search results: strictly
    descending score, or a tie broken by ascending document id. -/
def tieRelB (a b : SearchResult) : Bool :=
  decide (b.matchScore < a.matchScore) ||
    (decide (a.matchScore = b.matchScore) && decide (a.doc.id < b.doc.id))

/-- Check a relation on every adjacent pair of a list. -/
def chainB (f : SearchResult → SearchResult → Bool) : List SearchResult → Bool
  | [] => true
  | [_] => true
  | a :: b :: rest => f a b && chainB f (b :: rest)

/-- The ordering the claim asserts of search results: strictly descending
    score, with ties broken by ascending document id. -/
abbrev claimTieOrder (rs : List SearchResult) : Prop := chainB tieRelB rs = true

/-! ### Concrete ingestion scenario used for witnesses -/

/-- The empty processor state (fresh start, nothing loaded from disk). -/
def emptyState : ProcState := { documents := [], keywordIndex := [] }

/-- A concrete reader oracle: four small text files. -/
def exReader : String → String → Except String String := fun _ p =>
  if p = "a.txt" then Except.ok "alpha"
  else if p = "b.txt" then Except.ok "beta"
  else if p = "c.txt" then Except.ok "beta"
  else if p = "d.txt" then Except.ok "alpha"
  else Except.error "missing file"

/-- The state after ingesting the four example files: postings
    alpha to [0, 3] and beta to [1, 2]. -/
def exState : ProcState :=
  (processDocuments exReader emptyState ["a.txt", "b.txt", "c.txt", "d.txt"]).1

/-! ### Invariants of the processor state -/

/-- Well-formedness maintained by ingestion: every stored document carries
    its own position as id, and every posted id is a valid index. -/
def wfState (st : ProcState) : Prop :=
  (∀ i : Fin st.documents.length, (st.documents.get i).id = i.1) ∧
  (∀ p ∈ st.keywordIndex, ∀ d ∈ p.2, d < st.documents.length)

/-- Index growth relation: every existing posting list survives unchanged at
    the front of its successor. -/
def idxExtends (ix ix' : KwIndex) : Prop :=
  ∀ k ids, idxLookup ix k = some ids →
    ∃ ids', idxLookup ix' k = some ids' ∧ ids'.take ids.length = ids

/-- State growth relation of ingestion: the document list only gains a tail
    and every posting list only grows at its end. -/
def stateExtends (st st' : ProcState) : Prop :=
  (∃ tail, st'.documents = st.documents ++ tail) ∧
  idxExtends st.keywordIndex st'.keywordIndex

/-- The first hit returned by searching the example state for both example
    keywords. -/
def exHit : SearchResult :=
  { doc := { id := 0, file := "a.txt", text := "alpha",
             keywords := ["alpha"], preview := "alpha" },
    matchScore := 1, matchedKeywords := ["alpha"] }

/-! ### Cache (backend/core/cache.py) -/

/-- Modelled from the spec: the in-process key/value store of `SmartCache`.
    The class in `src/backend/core/cache.py` declares only `connect` and
    `close`, while its `get`, `set` and `cache_key` methods (called by the
    `cached` decorator) are missing from the source; spec section 4.5 and
    the CacheEntry data model define them as a map from key to value plus
    optional expiry instant. One entry of that map. -/
structure CacheEntry (α : Type) where
  value : α
  expiry : Option Nat
deriving DecidableEq

/-- Modelled from the spec: the cache contents, newest entry first. -/
abbrev CacheMap (α : Type) := List (String × CacheEntry α)

/-- Modelled from the spec: `set(k, v, ttl)` at instant `now` stores the
    value under the key with expiry `now + ttl` (no ttl means no expiry). -/
def cacheSet (m : CacheMap α) (now : Nat) (k : String) (v : α)
    (ttl : Option Nat) : CacheMap α :=
  (k, { value := v, expiry := ttl.map (fun t => now + t) }) :: m

/-- Modelled from the spec: `get(k)` at instant `now` returns the stored
    value while the TTL has not elapsed and is a miss afterwards. -/
def cacheGet (m : CacheMap α) (now : Nat) (k : String) : Option α :=
  match m.find? (fun e => e.1 == k) with
  | none => none
  | some (_, e) =>
    match e.expiry with
    | none => some e.value
    | some exp => if now < exp then some e.value else none

/-! ### Query engine entry point (QueryEngine.process_query) -/

/-- Result dict of the cached SQL handler `_handle_sql_query`: either the
    payload `{sql, data, row_count}` (row data abstracted by the type
    parameter) or the structured `{error}` dict. -/
inductive SqlHRes (δ : Type)
  | res (sql : String) (data : δ) (rowCount : Nat)
  | errRes (e : String)
deriving DecidableEq

/-- Result dict of `_handle_document_query`: documents and count. -/
abbrev DocHRes := List SearchResult × Nat

/-- The "error" key the dict-merge copies out of a SQL handler result. -/
def sqlErrField : SqlHRes δ → Option String
  | SqlHRes.errRes e => some e
  | _ => none

/-- The "data" key read by `result["results"] = sql_results.get("data")`. -/
def sqlDataField : SqlHRes δ → Option δ
  | SqlHRes.res _ d _ => some d
  | SqlHRes.errRes _ => none

/-- The `results` value of a query result, by branch. -/
inductive RVal (δ : Type)
  | sqlData (d : Option δ)
  | docList (ds : List SearchResult)
  | hybridR (sqlR : SqlHRes δ) (docR : DocHRes)
  | initEmpty
deriving DecidableEq

/-- The response dict of `process_query`. Keys absent from a branch are
    `none` (the degraded dict carries only query, error and query type). -/
structure QueryResult (δ : Type) where
  query : String
  queryType : String
  results : Option (RVal δ)
  sources : List String
  responseTime : Option ℚ
  cached : Bool
  errorMsg : Option String
deriving DecidableEq

/-- Python `round(x, 3)` on exact rational time values: round half to even
    at the third decimal. -/
def round3 (x : ℚ) : ℚ :=
  let m := x * 1000
  let f : ℤ := ⌊m⌋
  let r : ℚ := m - (f : ℚ)
  let n : ℤ :=
    if r < 1 / 2 then f
    else if 1 / 2 < r then f + 1
    else if f % 2 = 0 then f else f + 1
  (n : ℚ) / 1000

/-- Whether a handler call raised. -/
def isErr : Except ε α → Bool
  | Except.error _ => true
  | Except.ok _ => false

/-- The entry point `process_query`. The two awaited handlers are oracles
    that either return their result dict or raise; wall-clock instants are
    passed as exact rationals. The function is total: the try/except of the
    source is the match on the oracle outcomes, and any raise yields the
    degraded dict instead of propagating. -/
def processQuery (sqlH : String → Except String (SqlHRes δ))
    (docH : String → Except String DocHRes)
    (startT endT : ℚ) (q : String) : QueryResult δ :=
  let qt := classifyQuery q
  let deg : String → QueryResult δ := fun e =>
    { query := q, queryType := "unknown", results := none, sources := [],
      responseTime := none, cached := false, errorMsg := some e }
  let timed := some (round3 (endT - startT))
  if qt = "sql" then
    match sqlH q with
    | Except.error e => deg e
    | Except.ok r =>
      { query := q, queryType := qt, results := some (RVal.sqlData (sqlDataField r)),
        sources := ["database"], responseTime := timed, cached := false,
        errorMsg := sqlErrField r }
  else if qt = "document" then
    match docH q with
    | Except.error e => deg e
    | Except.ok dr =>
      { query := q, queryType := qt, results := some (RVal.docList dr.1),
        sources := ["documents"], responseTime := timed, cached := false,
        errorMsg := none }
  else if qt = "hybrid" then
    match sqlH q with
    | Except.error e => deg e
    | Except.ok sr =>
      match docH q with
      | Except.error e => deg e
      | Except.ok dr =>
        { query := q, queryType := qt, results := some (RVal.hybridR sr dr),
          sources := ["database", "documents"], responseTime := timed,
          cached := false, errorMsg := none }
  else
    { query := q, queryType := qt, results := some RVal.initEmpty,
      sources := [], responseTime := timed, cached := false, errorMsg := none }

/-- The raise condition of one `process_query` run: some handler call the
    taken branch awaits raises. -/
def queryFaults (sqlH : String → Except String (SqlHRes δ))
    (docH : String → Except String DocHRes) (q : String) : Bool :=
  let qt := classifyQuery q
  if qt = "sql" then isErr (sqlH q)
  else if qt = "document" then isErr (docH q)
  else if qt = "hybrid" then isErr (sqlH q) || isErr (docH q)
  else false

/-!
## Theorems

Helper lemmas come first inside each group; the claim theorems carry the
claim identifier in their doc comment.
-/

/-- Claim C2, counterexample: the query "list employees with python skills"
    is not classified as hybrid by the code — no SQL-intent phrase occurs in
    it (the list has "list all" and "find employees", not "list"), so the
    sql score is 0 and the document score 2, giving document. -/
theorem claim2_hybrid_counterexample :
    classifyQuery "list employees with python skills" = "document" ∧
    classifyQuery "list employees with python skills" ≠ "hybrid" :=
  ⟨by decide, by decide⟩

/-- Claim C2 (amended): classification is a pure function of the query
    string following exactly the claimed decision order (both scores
    positive gives hybrid, strictly larger sql score gives sql, positive
    document score gives document, default sql), and the four example
    queries classify as sql, document, document and sql respectively — the
    third example yields document, not hybrid as the original claim said. -/
theorem claim2_classifier_contract :
    (∀ q, classifyQuery q = specClassify q) ∧
    classifyQuery "how many employees are in engineering" = "sql" ∧
    classifyQuery candidateSkillsQuery = "document" ∧
    classifyQuery "list employees with python skills" = "document" ∧
    classifyQuery "hello" = "sql" :=
  ⟨fun _ => rfl, by decide, by decide, by decide, by decide⟩

/-- Claim C3: SQL validation returns invalid exactly for the statements the
    claim lists — the empty statement, any statement containing one of DROP,
    DELETE, TRUNCATE, ALTER, CREATE, UPDATE as a case-insensitive substring
    anywhere, and any statement not starting with SELECT after trimming
    whitespace; every other statement is accepted. In particular a SELECT
    mentioning a column named update_count is rejected. -/
theorem claim3_validation_contract :
    (∀ sql, (validateSql sql).1 = false ↔ specRejectsSql sql = true) ∧
    (validateSql "SELECT update_count FROM t").1 = false := by
  refine ⟨fun sql => ?_, by decide⟩
  unfold validateSql specRejectsSql
  by_cases h0 : sql = ""
  · simp [h0]
  · cases hf : dangerousKeywords.find? (fun kw => strContains (pyUpper sql) kw) with
    | some kw =>
      have hany : dangerousKeywords.any (fun kw => strContains (pyUpper sql) kw) = true :=
        List.any_eq_true.2 ⟨kw, List.mem_of_find?_eq_some hf, List.find?_some hf⟩
      simp [h0, hf, hany]
    | none =>
      have hany : dangerousKeywords.any (fun kw => strContains (pyUpper sql) kw) = false := by
        rw [List.any_eq_false]
        intro kw hkw
        simp [List.find?_eq_none.1 hf kw hkw]
      cases hs : strStartsWith (pyStrip (pyUpper sql)) "SELECT" <;>
        simp [h0, hf, hany, hs]

/-- Claim C7, counterexample: a table named emp is classified as Employee
    information by the code, while the keyword groups the claim lists (which
    lack emp) classify it as General data table. -/
theorem claim7_purpose_counterexample :
    inferTablePurpose "emp" [] = "Employee information" ∧
    specTablePurpose "emp" = "General data table" :=
  ⟨by decide, by decide⟩

/-- Claim C7 (amended): table purpose inference matches the claimed category
    table once the first keyword group also contains emp and the second also
    contains dept; the first matching category wins in the claimed tie-break
    order and unmatched names fall back to General data table. -/
theorem claim7_purpose_contract :
    ∀ name cols, inferTablePurpose name cols = amendedTablePurpose name := by
  intro name cols
  simp only [inferTablePurpose, amendedTablePurpose, purposeCategories, List.find?]
  cases h1 : (["employee", "staff", "personnel", "emp"] : List String).any
      (fun t => strContains (pyLower name) t) <;>
  cases h2 : (["department", "dept", "division"] : List String).any
      (fun t => strContains (pyLower name) t) <;>
  cases h3 : (["salary", "compensation", "pay"] : List String).any
      (fun t => strContains (pyLower name) t) <;>
  cases h4 : (["document", "file", "attachment"] : List String).any
      (fun t => strContains (pyLower name) t) <;>
  simp [h1, h2, h3, h4]

theorem bump_cons_self (k v : Nat) (rest : List (Nat × Nat)) (d : Nat) (h : k = d) :
    bump ((k, v) :: rest) d = (k, v + 1) :: rest := by simp [bump, h]

theorem bump_cons_ne (k v : Nat) (rest : List (Nat × Nat)) (d : Nat) (h : ¬ k = d) :
    bump ((k, v) :: rest) d = (k, v) :: bump rest d := by simp [bump, h]

theorem scoreVal_nil (d : Nat) : scoreVal [] d = 0 := rfl

theorem scoreVal_cons (p : Nat × Nat) (l : List (Nat × Nat)) (d : Nat) :
    scoreVal (p :: l) d = (if p.1 = d then p.2 else 0) + scoreVal l d := by
  by_cases h : p.1 = d <;> simp [scoreVal, h]

theorem scoreVal_bump_self (l : List (Nat × Nat)) (d : Nat) :
    scoreVal (bump l d) d = scoreVal l d + 1 := by
  induction l with
  | nil => simp [bump, scoreVal]
  | cons p rest ih =>
    obtain ⟨k, v⟩ := p
    by_cases h : k = d
    · rw [bump_cons_self k v rest d h, scoreVal_cons, scoreVal_cons]
      simp [h]
      omega
    · rw [bump_cons_ne k v rest d h, scoreVal_cons, scoreVal_cons, ih]
      omega

theorem scoreVal_bump_ne (l : List (Nat × Nat)) (d e : Nat) (h : e ≠ d) :
    scoreVal (bump l d) e = scoreVal l e := by
  induction l with
  | nil =>
    simp only [bump, scoreVal_cons, scoreVal_nil]
    rw [if_neg (fun hc : d = e => h hc.symm)]
  | cons p rest ih =>
    obtain ⟨k, v⟩ := p
    by_cases hp : k = d
    · rw [bump_cons_self k v rest d hp, scoreVal_cons, scoreVal_cons]
      have hne : ¬ k = e := fun hc => h (hp ▸ hc.symm ▸ rfl)
      simp [hne]
    · rw [bump_cons_ne k v rest d hp, scoreVal_cons, scoreVal_cons, ih]

theorem scoreVal_foldl_bump (ids : List Nat) (sc : List (Nat × Nat)) (d : Nat) :
    scoreVal (ids.foldl bump sc) d = scoreVal sc d + ids.count d := by
  induction ids generalizing sc with
  | nil => simp
  | cons i rest ih =>
    simp only [List.foldl_cons]
    rw [ih]
    by_cases h : i = d
    · subst h
      rw [scoreVal_bump_self]
      simp [List.count_cons]
      omega
    · rw [scoreVal_bump_ne _ _ _ (Ne.symm h)]
      simp [List.count_cons, h]

theorem scoreVal_collect_aux (idx : KwIndex) (qkws : List String) (d : Nat) :
    ∀ acc : List (Nat × Nat),
      scoreVal (qkws.foldl
        (fun sc kw =>
          match idxLookup idx (pyLower kw) with
          | none => sc
          | some ids => ids.foldl bump sc) acc) d
      = scoreVal acc d + keywordHits idx qkws d := by
  induction qkws with
  | nil => intro acc; simp [keywordHits]
  | cons kw rest ih =>
    intro acc
    simp only [List.foldl_cons]
    cases hl : idxLookup idx (pyLower kw) with
    | none =>
      rw [ih]
      simp [keywordHits, postingCount, hl]
    | some ids =>
      rw [ih, scoreVal_foldl_bump]
      simp [keywordHits, postingCount, hl]
      omega

theorem scoreVal_collect (idx : KwIndex) (qkws : List String) (d : Nat) :
    scoreVal (collectScores idx qkws) d = keywordHits idx qkws d := by
  have h := scoreVal_collect_aux idx qkws d []
  simpa [collectScores, scoreVal] using h

theorem bump_keys (l : List (Nat × Nat)) (d : Nat) :
    (bump l d).map Prod.fst =
      if d ∈ l.map Prod.fst then l.map Prod.fst else l.map Prod.fst ++ [d] := by
  induction l with
  | nil => simp [bump]
  | cons p rest ih =>
    obtain ⟨k, v⟩ := p
    by_cases h : k = d
    · rw [bump_cons_self k v rest d h]
      simp [h]
    · rw [bump_cons_ne k v rest d h]
      simp only [List.map_cons, ih]
      by_cases hm : d ∈ rest.map Prod.fst
      · simp [hm, h, List.mem_cons, Ne.symm h]
      · simp [hm, h, List.mem_cons, Ne.symm h]

theorem bump_keys_nodup (l : List (Nat × Nat)) (d : Nat)
    (h : (l.map Prod.fst).Nodup) : ((bump l d).map Prod.fst).Nodup := by
  rw [bump_keys]
  by_cases hm : d ∈ l.map Prod.fst
  · simpa [hm] using h
  · simp [hm, List.nodup_append, h]

theorem foldl_bump_keys_nodup (ids : List Nat) (sc : List (Nat × Nat))
    (h : (sc.map Prod.fst).Nodup) : (((ids.foldl bump sc)).map Prod.fst).Nodup := by
  induction ids generalizing sc with
  | nil => simpa
  | cons i rest ih =>
    simp only [List.foldl_cons]
    exact ih _ (bump_keys_nodup _ _ h)

theorem collect_keys_nodup (idx : KwIndex) (qkws : List String) :
    ((collectScores idx qkws).map Prod.fst).Nodup := by
  unfold collectScores
  generalize hacc : ([] : List (Nat × Nat)) = acc
  have hn : (acc.map Prod.fst).Nodup := by rw [← hacc]; simp
  clear hacc
  induction qkws generalizing acc with
  | nil => simpa
  | cons kw rest ih =>
    simp only [List.foldl_cons]
    cases hl : idxLookup idx (pyLower kw) with
    | none => simpa [hl] using ih _ hn
    | some ids =>
      simp only [hl]
      exact ih _ (foldl_bump_keys_nodup _ _ hn)

theorem scoreVal_eq_zero_of_not_mem (l : List (Nat × Nat)) (d : Nat)
    (h : d ∉ l.map Prod.fst) : scoreVal l d = 0 := by
  induction l with
  | nil => rfl
  | cons p rest ih =>
    rw [scoreVal_cons]
    simp only [List.map_cons, List.mem_cons] at h
    push_neg at h
    rw [if_neg (fun hc => h.1 hc.symm), ih h.2]

theorem entry_snd_eq_scoreVal (l : List (Nat × Nat))
    (h : (l.map Prod.fst).Nodup) : ∀ p ∈ l, p.2 = scoreVal l p.1 := by
  induction l with
  | nil => intro p hp; cases hp
  | cons q rest ih =>
    intro p hp
    simp only [List.map_cons, List.nodup_cons] at h
    rcases List.mem_cons.1 hp with rfl | hm
    · rw [scoreVal_cons, if_pos rfl, scoreVal_eq_zero_of_not_mem rest p.1 h.1]
      omega
    · rw [scoreVal_cons]
      have hne : ¬ q.1 = p.1 := by
        intro hc
        exact h.1 (hc ▸ List.mem_map_of_mem Prod.fst hm)
      rw [if_neg hne]
      simpa using ih h.2 p hm

theorem bump_entries_pos (l : List (Nat × Nat)) (d : Nat)
    (h : ∀ p ∈ l, 1 ≤ p.2) : ∀ p ∈ bump l d, 1 ≤ p.2 := by
  induction l with
  | nil => intro p hp; simp [bump] at hp; simp [hp]
  | cons q rest ih =>
    obtain ⟨k, v⟩ := q
    by_cases hk : k = d
    · rw [bump_cons_self k v rest d hk]
      intro p hp
      rcases List.mem_cons.1 hp with rfl | hm
      · omega
      · exact h p (List.mem_cons_of_mem _ hm)
    · rw [bump_cons_ne k v rest d hk]
      intro p hp
      rcases List.mem_cons.1 hp with rfl | hm
      · exact h _ (List.mem_cons_self _ _)
      · exact ih (fun p hp => h p (List.mem_cons_of_mem _ hp)) p hm

theorem foldl_bump_entries_pos (ids : List Nat) (sc : List (Nat × Nat))
    (h : ∀ p ∈ sc, 1 ≤ p.2) : ∀ p ∈ ids.foldl bump sc, 1 ≤ p.2 := by
  induction ids generalizing sc with
  | nil => exact h
  | cons i rest ih =>
    simp only [List.foldl_cons]
    exact ih _ (bump_entries_pos _ _ h)

theorem collect_entries_pos (idx : KwIndex) (qkws : List String) :
    ∀ p ∈ collectScores idx qkws, 1 ≤ p.2 := by
  unfold collectScores
  generalize hacc : ([] : List (Nat × Nat)) = acc
  have hn : ∀ p ∈ acc, 1 ≤ p.2 := by rw [← hacc]; simp
  clear hacc
  induction qkws generalizing acc with
  | nil => exact hn
  | cons kw rest ih =>
    simp only [List.foldl_cons]
    cases hl : idxLookup idx (pyLower kw) with
    | none => simpa [hl] using ih _ hn
    | some ids =>
      simp only [hl]
      exact ih _ (foldl_bump_entries_pos _ _ hn)

theorem idxLookup_mem (ix : KwIndex) (k : String) (ids : List Nat)
    (h : idxLookup ix k = some ids) : (k, ids) ∈ ix := by
  induction ix with
  | nil => cases h
  | cons p rest ih =>
    obtain ⟨k0, ids0⟩ := p
    by_cases hk : k0 = k
    · subst hk
      have h2 : some ids0 = some ids := by simpa [idxLookup] using h
      obtain rfl : ids0 = ids := Option.some.inj h2
      exact List.mem_cons_self _ _
    · simp only [idxLookup, if_neg hk] at h
      exact List.mem_cons_of_mem _ (ih h)

theorem postingCount_eq_indicator (idx : KwIndex) (kw : String) (d : Nat)
    (hnodup : ∀ p ∈ idx, p.2.Nodup) :
    postingCount idx kw d = if postingHas idx kw d then 1 else 0 := by
  unfold postingCount postingHas
  cases hl : idxLookup idx (pyLower kw) with
  | none => simp
  | some ids =>
    have hnd : ids.Nodup := hnodup (pyLower kw, ids) (idxLookup_mem _ _ _ hl)
    by_cases hm : d ∈ ids
    · simp [List.count_eq_of_nodup hnd, hm]
    · simp [List.count_eq_of_nodup hnd, hm]

theorem keywordHits_eq_countP (idx : KwIndex) (qkws : List String) (d : Nat)
    (hnodup : ∀ p ∈ idx, p.2.Nodup) :
    keywordHits idx qkws d = qkws.countP (fun kw => postingHas idx kw d) := by
  induction qkws with
  | nil => rfl
  | cons kw rest ih =>
    simp only [keywordHits, List.map_cons, List.sum_cons, List.countP_cons]
    rw [postingCount_eq_indicator idx kw d hnodup]
    simp only [keywordHits] at ih
    rw [ih]
    by_cases hp : postingHas idx kw d
    · simp [hp]
      omega
    · simp [hp]

theorem pairwise_filterMap_mono {α β : Type} (f : α → Option β)
    (R : α → α → Prop) (S : β → β → Prop)
    (H : ∀ a b x y, R a b → f a = some x → f b = some y → S x y) :
    ∀ l : List α, l.Pairwise R → (l.filterMap f).Pairwise S := by
  intro l
  induction l with
  | nil => intro _; simp
  | cons a rest ih =>
    intro hp
    rw [List.filterMap_cons]
    rcases List.pairwise_cons.1 hp with ⟨ha, hrest⟩
    cases hf : f a with
    | none => exact ih hrest
    | some x =>
      refine List.pairwise_cons.2 ⟨?_, ih hrest⟩
      intro y hy
      rcases List.mem_filterMap.1 hy with ⟨b, hb, hfb⟩
      exact H a b x y (ha b hb) hf hfb

theorem search_result_spec (st : ProcState) (q : String) (topK : Nat)
    (r : SearchResult) (hr : r ∈ search st q topK) :
    ∃ (d : Nat) (hlt : d < st.documents.length),
      r.doc = st.documents.get ⟨d, hlt⟩ ∧
      r.matchScore = keywordHits st.keywordIndex (extractKeywords q) d ∧
      r.matchedKeywords = (extractKeywords q).filter
        (fun kw => (st.documents.get ⟨d, hlt⟩).keywords.contains (pyLower kw)) ∧
      1 ≤ r.matchScore := by
  unfold search at hr
  by_cases he : (extractKeywords q).isEmpty
  · simp [he] at hr
  · simp only [he, if_false, Bool.false_eq_true] at hr
    rcases List.mem_filterMap.1 hr with ⟨p, hp, hfp⟩
    by_cases hlt : p.1 < st.documents.length
    · simp only [dif_pos hlt, Option.some.injEq] at hfp
      have hpc : p ∈ collectScores st.keywordIndex (extractKeywords q) :=
        (List.perm_insertionSort scoreGe _).subset (List.take_subset _ _ hp)
      have hsv : p.2 = scoreVal (collectScores st.keywordIndex (extractKeywords q)) p.1 :=
        entry_snd_eq_scoreVal _ (collect_keys_nodup _ _) p hpc
      have hpos : 1 ≤ p.2 := collect_entries_pos _ _ p hpc
      refine ⟨p.1, hlt, ?_, ?_, ?_, ?_⟩
      · rw [← hfp]
      · rw [← hfp]
        simpa [scoreVal_collect] using hsv
      · rw [← hfp]
      · rw [← hfp]
        exact hpos
    · simp only [dif_neg hlt] at hfp
      cases hfp

/-- Claim C4 (amended): for a state whose documents carry their list
    positions as ids and whose posting lists hold no duplicates (both hold
    for every state built by ingestion), search returns at most top k
    results, scores are non-strictly descending, each result scores the
    number of distinct query keywords whose posting lists contain its
    document id, and each result reports the query keywords found in its
    stored keyword list. Ties are broken by first-encounter order of the
    score accumulation, not by ascending document id as the original claim
    said. -/
theorem claim4_search_ranking (st : ProcState) (q : String) (topK : Nat)
    (hids : ∀ i : Fin st.documents.length, (st.documents.get i).id = i.1)
    (hnodup : ∀ p ∈ st.keywordIndex, p.2.Nodup) :
    (search st q topK).length ≤ topK ∧
    (search st q topK).Pairwise (fun a b => b.matchScore ≤ a.matchScore) ∧
    ∀ r ∈ search st q topK,
      r.matchScore = (extractKeywords q).countP
        (fun kw => postingHas st.keywordIndex kw r.doc.id) ∧
      r.matchedKeywords = (extractKeywords q).filter
        (fun kw => r.doc.keywords.contains (pyLower kw)) := by
  refine ⟨?_, ?_, ?_⟩
  · unfold search
    by_cases he : (extractKeywords q).isEmpty
    · simp [he]
    · simp only [he, if_false, Bool.false_eq_true]
      exact Nat.le_trans (List.length_filterMap_le _ _) (List.length_take_le _ _)
  · unfold search
    by_cases he : (extractKeywords q).isEmpty
    · simp [he]
    · simp only [he, if_false, Bool.false_eq_true]
      refine pairwise_filterMap_mono _ scoreGe _ ?_ _
        ((List.sorted_insertionSort scoreGe _).sublist (List.take_sublist _ _))
      intro a b x y hab hfa hfb
      by_cases ha : a.1 < st.documents.length
      · simp only [dif_pos ha, Option.some.injEq] at hfa
        by_cases hb : b.1 < st.documents.length
        · simp only [dif_pos hb, Option.some.injEq] at hfb
          rw [← hfa, ← hfb]
          exact hab
        · simp only [dif_neg hb] at hfb
          cases hfb
      · simp only [dif_neg ha] at hfa
        cases hfa
  · intro r hr
    rcases search_result_spec st q topK r hr with ⟨d, hlt, hdoc, hscore, hmk, _⟩
    have hid : r.doc.id = d := by rw [hdoc]; exact hids ⟨d, hlt⟩
    constructor
    · rw [hscore, hid, keywordHits_eq_countP _ _ _ hnodup]
    · rw [hmk, hdoc]

/-- Claim C4, counterexample: in the ingested example state the postings are
    alpha to [0, 3] and beta to [1, 2]; searching for both keywords gives
    four results all scoring 1, returned in first-encounter order 0, 3, 1,
    2 — the adjacent tied pair (3, 1) violates the claimed ascending
    document-id tie-break, whichever order the two query keywords are
    enumerated in. -/
theorem claim4_tiebreak_counterexample :
    (search exState "alpha beta" 5).map (fun r => r.doc.id) = [0, 3, 1, 2] ∧
    (search exState "alpha beta" 5).map SearchResult.matchScore = [1, 1, 1, 1] ∧
    ¬ claimTieOrder (search exState "alpha beta" 5) :=
  ⟨by decide, by decide, by decide⟩

/-- Witness for claim C4: the amended ranking contract instantiated at the
    concrete ingested example state. -/
theorem claim4_search_ranking_witness :
    (search exState "alpha beta" 2).length ≤ 2 ∧
    (search exState "alpha beta" 2).Pairwise (fun a b => b.matchScore ≤ a.matchScore) ∧
    ∀ r ∈ search exState "alpha beta" 2,
      r.matchScore = (extractKeywords "alpha beta").countP
        (fun kw => postingHas exState.keywordIndex kw r.doc.id) ∧
      r.matchedKeywords = (extractKeywords "alpha beta").filter
        (fun kw => r.doc.keywords.contains (pyLower kw)) :=
  claim4_search_ranking exState "alpha beta" 2 (by decide) (by decide)

/-- Claim C10: for every search result of a state with position ids,
    duplicate-free postings, and stored keywords consistent with the posting
    lists on the query keywords, the matched-keywords list is the filter of
    the query keywords by lowercased membership in the stored keyword list,
    it is a non-empty subset of the extracted query keywords, and its size
    equals the match score. -/
theorem claim10_matched_keywords (st : ProcState) (q : String) (topK : Nat)
    (r : SearchResult) (hr : r ∈ search st q topK)
    (hids : ∀ i : Fin st.documents.length, (st.documents.get i).id = i.1)
    (hnodup : ∀ p ∈ st.keywordIndex, p.2.Nodup)
    (hcons : ∀ kw ∈ extractKeywords q,
      postingHas st.keywordIndex kw r.doc.id = r.doc.keywords.contains (pyLower kw)) :
    r.matchedKeywords = (extractKeywords q).filter
      (fun kw => r.doc.keywords.contains (pyLower kw)) ∧
    r.matchedKeywords ≠ [] ∧
    (∀ kw ∈ r.matchedKeywords, kw ∈ extractKeywords q) ∧
    r.matchedKeywords.length = r.matchScore := by
  rcases search_result_spec st q topK r hr with ⟨d, hlt, hdoc, hscore, hmk, hpos⟩
  have hid : r.doc.id = d := by rw [hdoc]; exact hids ⟨d, hlt⟩
  have hmk2 : r.matchedKeywords = (extractKeywords q).filter
      (fun kw => r.doc.keywords.contains (pyLower kw)) := by rw [hmk, hdoc]
  have hscore2 : r.matchScore = (extractKeywords q).countP
      (fun kw => postingHas st.keywordIndex kw r.doc.id) := by
    rw [hscore, hid, keywordHits_eq_countP _ _ _ hnodup]
  have hlen : r.matchedKeywords.length = r.matchScore := by
    rw [hmk2, hscore2, ← List.countP_eq_length_filter]
    exact (List.countP_congr (fun kw hkw => by rw [hcons kw hkw])).symm
  have hne : r.matchedKeywords ≠ [] := by
    have hl : 0 < r.matchedKeywords.length := by
      rw [hlen]
      omega
    exact List.ne_nil_of_length_pos hl
  refine ⟨hmk2, hne, ?_, hlen⟩
  intro kw hkw
  rw [hmk2] at hkw
  exact (List.mem_filter.1 hkw).1

/-- Witness for claim C10: the first hit of the example search, with every
    hypothesis checked on the concrete state. -/
theorem claim10_matched_keywords_witness :
    exHit.matchedKeywords = (extractKeywords "alpha beta").filter
      (fun kw => exHit.doc.keywords.contains (pyLower kw)) ∧
    exHit.matchedKeywords ≠ [] ∧
    (∀ kw ∈ exHit.matchedKeywords, kw ∈ extractKeywords "alpha beta") ∧
    exHit.matchedKeywords.length = exHit.matchScore :=
  claim10_matched_keywords exState "alpha beta" 5 exHit (by decide) (by decide)
    (by decide) (by decide)

theorem toNat_ofNat_valid (n : Nat) (h1 : n < 55296) : (Char.ofNat n).toNat = n := by
  unfold Char.ofNat
  rw [dif_pos (Or.inl h1)]
  rfl

theorem lowerChar_not_upper (c : Char) : (lowerChar c).isUpper = false := by
  unfold lowerChar
  by_cases h : c.isUpper
  · rw [if_pos h]
    have h2 := h
    simp only [Char.isUpper, Bool.and_eq_true, decide_eq_true_eq] at h2
    have hb1 : 65 ≤ c.toNat := UInt32.le_def.1 h2.1
    have hb2 : c.toNat ≤ 90 := UInt32.le_def.1 h2.2
    have he : (Char.ofNat (c.toNat + 32)).toNat = c.toNat + 32 :=
      toNat_ofNat_valid _ (by omega)
    simp only [Char.isUpper, Bool.and_eq_false_iff, decide_eq_false_iff_not]
    right
    intro hx
    have hx2 : (Char.ofNat (c.toNat + 32)).toNat ≤ 90 := UInt32.le_def.1 hx
    rw [he] at hx2
    omega
  · rw [if_neg h]
    simpa using h

theorem dedup_foldl_mem (l : List String) :
    ∀ (acc : List String) (x : String),
      x ∈ l.foldl (fun acc w => if w ∈ acc then acc else acc ++ [w]) acc →
      x ∈ acc ∨ x ∈ l := by
  induction l with
  | nil => intro acc x hx; exact Or.inl hx
  | cons w ws ih =>
    intro acc x hx
    simp only [List.foldl_cons] at hx
    rcases ih _ x hx with hm | hm
    · by_cases hw : w ∈ acc
      · rw [if_pos hw] at hm
        exact Or.inl hm
      · rw [if_neg hw] at hm
        rcases List.mem_append.1 hm with hm2 | hm2
        · exact Or.inl hm2
        · simp only [List.mem_singleton] at hm2
          exact Or.inr (hm2 ▸ List.mem_cons_self _ _)
    · exact Or.inr (List.mem_cons_of_mem _ hm)

theorem dedup_foldl_nodup (l : List String) :
    ∀ acc : List String, acc.Nodup →
      (l.foldl (fun acc w => if w ∈ acc then acc else acc ++ [w]) acc).Nodup := by
  induction l with
  | nil => intro acc h; exact h
  | cons w ws ih =>
    intro acc h
    simp only [List.foldl_cons]
    by_cases hw : w ∈ acc
    · rw [if_pos hw]
      exact ih _ h
    · rw [if_neg hw]
      refine ih _ ?_
      simp [List.nodup_append, h, hw]

theorem dedupKeepFirst_subset (l : List String) (x : String)
    (hx : x ∈ dedupKeepFirst l) : x ∈ l := by
  rcases dedup_foldl_mem l [] x hx with h | h
  · cases h
  · exact h

theorem dedupKeepFirst_nodup (l : List String) : (dedupKeepFirst l).Nodup :=
  dedup_foldl_nodup l [] List.nodup_nil

theorem runsAux_chars (l : List Char) :
    (∀ c ∈ (runsAux l).1, c ∈ l) ∧ (∀ r ∈ (runsAux l).2, ∀ c ∈ r, c ∈ l) := by
  induction l with
  | nil => simp [runsAux]
  | cons a l ih =>
    have hstep : runsAux (a :: l) =
        if isWordChar a then (a :: (runsAux l).1, (runsAux l).2)
        else ([], if (runsAux l).1.isEmpty then (runsAux l).2
                  else (runsAux l).1 :: (runsAux l).2) := rfl
    rw [hstep]
    by_cases hw : isWordChar a
    · rw [if_pos hw]
      refine ⟨?_, ?_⟩
      · intro c hc
        rcases List.mem_cons.1 hc with rfl | hc2
        · exact List.mem_cons_self _ _
        · exact List.mem_cons_of_mem _ (ih.1 c hc2)
      · intro r hr c hc
        exact List.mem_cons_of_mem _ (ih.2 r hr c hc)
    · rw [if_neg hw]
      refine ⟨fun c hc => absurd hc (List.not_mem_nil c), ?_⟩
      by_cases he : (runsAux l).1.isEmpty
      · rw [if_pos he]
        intro r hr c hc
        exact List.mem_cons_of_mem _ (ih.2 r hr c hc)
      · rw [if_neg he]
        intro r hr c hc
        rcases List.mem_cons.1 hr with rfl | hr2
        · exact List.mem_cons_of_mem _ (ih.1 c hc)
        · exact List.mem_cons_of_mem _ (ih.2 r hr2 c hc)

theorem wordRuns_chars (l : List Char) :
    ∀ r ∈ wordRuns l, ∀ c ∈ r, c ∈ l := by
  unfold wordRuns
  by_cases he : (runsAux l).1.isEmpty
  · rw [if_pos he]
    exact (runsAux_chars l).2
  · rw [if_neg he]
    intro r hr c hc
    rcases List.mem_cons.1 hr with rfl | hr2
    · exact (runsAux_chars l).1 c hc
    · exact (runsAux_chars l).2 r hr2 c hc

/-- Claim C5: keyword extraction returns a duplicate-free list (a set);
    every kept token has length at least 3, consists of alphabetic
    characters only, is entirely lowercase, and is not a stopword; the
    example sentence extracts exactly employee, python and skills; and a
    query whose extracted keyword set is empty makes search return the empty
    result list. Determinism and idempotence hold because the extractor is a
    pure function of its input. -/
theorem claim5_keyword_extraction :
    (∀ text, (extractKeywords text).Nodup) ∧
    (∀ text w, w ∈ extractKeywords text →
      3 ≤ w.length ∧ w.data.all Char.isAlpha = true ∧
      (∀ c ∈ w.data, c.isLower = true) ∧ w ∉ stopwords) ∧
    extractKeywords "The Employee has Python skills" = ["employee", "python", "skills"] ∧
    (∀ st topK q, extractKeywords q = [] → search st q topK = []) := by
  refine ⟨?_, ?_, by decide, ?_⟩
  · intro text
    exact dedupKeepFirst_nodup _
  · intro text w hw
    have hw2 := dedupKeepFirst_subset _ _ hw
    rcases List.mem_filter.1 hw2 with ⟨htok, hpred⟩
    have hpred2 : w ∉ stopwords ∧ 2 < w.length := by simpa using hpred
    unfold pyFindallTokens at htok
    rcases List.mem_map.1 htok with ⟨r, hrmem, hreq⟩
    rcases List.mem_filter.1 hrmem with ⟨hruns, hq⟩
    have hq2 : r.all Char.isAlpha = true ∧ 3 ≤ r.length := by simpa using hq
    have hdata : w.data = r := by rw [← hreq]
    refine ⟨?_, ?_, ?_, hpred2.1⟩
    · show 3 ≤ w.data.length
      rw [hdata]
      exact hq2.2
    · rw [hdata]
      exact hq2.1
    · intro c hc
      rw [hdata] at hc
      have hcl : c ∈ (pyLower text).data := wordRuns_chars _ r hruns c hc
      have hcl2 : c ∈ List.map lowerChar text.data := hcl
      rcases List.mem_map.1 hcl2 with ⟨c0, _, hc0⟩
      have halpha : c.isAlpha = true := List.all_eq_true.1 hq2.1 c hc
      have hup : c.isUpper = false := by rw [← hc0]; exact lowerChar_not_upper c0
      have hor : (c.isUpper || c.isLower) = true := halpha
      rw [hup] at hor
      simpa using hor
  · intro st topK q h
    unfold search
    rw [h]
    simp

/-- Witness for claim C5: the token facts at the example sentence and the
    empty-search short-circuit at a stopword-only query. -/
theorem claim5_keyword_extraction_witness :
    3 ≤ ("employee" : String).length ∧ search emptyState "the" 5 = [] :=
  ⟨(claim5_keyword_extraction.2.1 "The Employee has Python skills" "employee"
      (by decide)).1,
   claim5_keyword_extraction.2.2.2 emptyState 5 "the" (by decide)⟩

theorem processOne_counts (reader : String → String → Except String String)
    (st : ProcState) (res : BatchResults) (path : String) :
    ((processOne reader st res path).2.processed + (processOne reader st res path).2.failed
       = res.processed + res.failed + 1) ∧
    ((processOne reader st res path).2.documents.length + res.processed
       = res.documents.length + (processOne reader st res path).2.processed) := by
  cases hx : extractText reader path with
  | error e =>
    simp [processOne, hx]
    omega
  | ok text =>
    simp [processOne, hx]
    omega

theorem batch_fold_counts (reader : String → String → Except String String) :
    ∀ (paths : List String) (st : ProcState) (res : BatchResults),
      ((paths.foldl (fun acc p => processOne reader acc.1 acc.2 p) (st, res)).2.processed
          + (paths.foldl (fun acc p => processOne reader acc.1 acc.2 p) (st, res)).2.failed
        = res.processed + res.failed + paths.length)
      ∧ ((paths.foldl (fun acc p => processOne reader acc.1 acc.2 p) (st, res)).2.documents.length
          + res.processed
        = res.documents.length
          + (paths.foldl (fun acc p => processOne reader acc.1 acc.2 p) (st, res)).2.processed) := by
  intro paths
  induction paths with
  | nil => intro st res; simp
  | cons p ps ih =>
    intro st res
    simp only [List.foldl_cons]
    obtain ⟨hc1, hc2⟩ := processOne_counts reader st res p
    have h := ih (processOne reader st res p).1 (processOne reader st res p).2
    rw [Prod.mk.eta] at h
    obtain ⟨h1, h2⟩ := h
    constructor
    · simp only [List.length_cons]
      omega
    · omega

/-- Claim C6: a file whose text extraction raises leaves the state and the
    processed count unchanged and increments only the failed count; the
    batch loop is a total function that always completes, with processed
    plus failed equal to the number of files, one per-file outcome entry per
    processed file, and the reported document total equal to the final
    document-list length. -/
theorem claim6_batch_isolation (reader : String → String → Except String String)
    (path : String) (e : String) (hfail : extractText reader path = Except.error e) :
    (∀ st res, processOne reader st res path = (st, { res with failed := res.failed + 1 })) ∧
    (∀ st paths,
      (processDocuments reader st paths).2.processed
          + (processDocuments reader st paths).2.failed = paths.length ∧
      (processDocuments reader st paths).2.documents.length
        = (processDocuments reader st paths).2.processed ∧
      (processDocuments reader st paths).2.totalDocuments
        = (processDocuments reader st paths).1.documents.length) := by
  constructor
  · intro st res
    simp [processOne, hfail]
  · intro st paths
    obtain ⟨h1, h2⟩ := batch_fold_counts reader paths st emptyBatchResults
    simp only [emptyBatchResults, List.length_nil] at h1 h2
    simp only [processDocuments, emptyBatchResults]
    exact ⟨by omega, by omega, by trivial⟩

/-- Witness for claim C6: ingesting a file with the unsupported extension
    xyz fails without touching the state and the one-file batch reports one
    failure. -/
theorem claim6_batch_isolation_witness :
    processOne exReader emptyState emptyBatchResults "report.xyz"
      = (emptyState, { emptyBatchResults with failed := 1 }) ∧
    (processDocuments exReader emptyState ["report.xyz"]).2.processed
        + (processDocuments exReader emptyState ["report.xyz"]).2.failed = 1 := by
  have h := claim6_batch_isolation exReader "report.xyz" "Unsupported file type: xyz" rfl
  exact ⟨h.1 emptyState emptyBatchResults, (h.2 emptyState ["report.xyz"]).1⟩

theorem idxLookup_idxAppend (ix : KwIndex) (k : String) (d : Nat) (k' : String) :
    idxLookup (idxAppend ix k d) k' =
      if k' = k then some (((idxLookup ix k).getD []) ++ [d]) else idxLookup ix k' := by
  induction ix with
  | nil =>
    by_cases h : k' = k
    · subst h
      simp [idxAppend, idxLookup]
    · have hne : ¬ k = k' := fun hc => h hc.symm
      simp [idxAppend, idxLookup, h, hne]
  | cons p rest ih =>
    obtain ⟨k0, ids0⟩ := p
    by_cases h0 : k0 = k
    · subst h0
      have happ : idxAppend ((k0, ids0) :: rest) k0 d = (k0, ids0 ++ [d]) :: rest := by
        simp [idxAppend]
      rw [happ]
      by_cases h' : k' = k0
      · subst h'
        simp [idxLookup]
      · have hne : ¬ k0 = k' := fun hc => h' hc.symm
        simp [idxLookup, h', hne]
    · have happ : idxAppend ((k0, ids0) :: rest) k d = (k0, ids0) :: idxAppend rest k d := by
        simp [idxAppend, h0]
      rw [happ]
      by_cases h' : k' = k0
      · subst h'
        have hkk : ¬ k' = k := h0
        simp [idxLookup, hkk]
      · have hne : ¬ k0 = k' := fun hc => h' hc.symm
        have hlk2 : idxLookup ((k0, ids0) :: idxAppend rest k d) k'
            = idxLookup (idxAppend rest k d) k' := by
          simp [idxLookup, hne]
        have hlk3 : idxLookup ((k0, ids0) :: rest) k' = idxLookup rest k' := by
          simp [idxLookup, hne]
        have hlk4 : idxLookup ((k0, ids0) :: rest) k = idxLookup rest k := by
          have hne2 : ¬ k0 = k := h0
          simp [idxLookup, hne2]
        rw [hlk2, ih, hlk3, hlk4]

theorem idxExtends_refl (ix : KwIndex) : idxExtends ix ix := by
  intro k ids h
  exact ⟨ids, h, List.take_length ids⟩

theorem idxExtends_trans (a b c : KwIndex)
    (h1 : idxExtends a b) (h2 : idxExtends b c) : idxExtends a c := by
  intro k ids h
  rcases h1 k ids h with ⟨ids1, hb, ht1⟩
  rcases h2 k ids1 hb with ⟨ids2, hc, ht2⟩
  refine ⟨ids2, hc, ?_⟩
  have hlen : ids.length ≤ ids1.length := by
    have hlt := congrArg List.length ht1
    simp [List.length_take] at hlt
    omega
  calc ids2.take ids.length
      = (ids2.take ids1.length).take ids.length := by
        rw [List.take_take, Nat.min_eq_left hlen]
    _ = ids1.take ids.length := by rw [ht2]
    _ = ids := ht1

theorem idxExtends_append (ix : KwIndex) (k : String) (d : Nat) :
    idxExtends ix (idxAppend ix k d) := by
  intro k' ids h
  rw [idxLookup_idxAppend]
  by_cases hk : k' = k
  · subst hk
    rw [h]
    exact ⟨ids ++ [d], by simp, List.take_left ids [d]⟩
  · rw [if_neg hk]
    exact ⟨ids, h, List.take_length ids⟩

theorem idxExtends_foldl (kws : List String) (docId : Nat) :
    ∀ ix : KwIndex,
      idxExtends ix (kws.foldl (fun ix kw => idxAppend ix (pyLower kw) docId) ix) := by
  induction kws with
  | nil => intro ix; exact idxExtends_refl ix
  | cons kw rest ih =>
    intro ix
    simp only [List.foldl_cons]
    exact idxExtends_trans _ _ _ (idxExtends_append ix (pyLower kw) docId) (ih _)

theorem idxAppend_bound (ix : KwIndex) (k : String) (d n : Nat)
    (hix : ∀ p ∈ ix, ∀ x ∈ p.2, x < n) (hd : d < n) :
    ∀ p ∈ idxAppend ix k d, ∀ x ∈ p.2, x < n := by
  induction ix with
  | nil =>
    intro p hp x hx
    simp [idxAppend] at hp
    subst hp
    simp at hx
    omega
  | cons q rest ih =>
    obtain ⟨k0, ids0⟩ := q
    by_cases h0 : k0 = k
    · subst h0
      intro p hp x hx
      simp only [idxAppend, if_pos rfl] at hp
      rcases List.mem_cons.1 hp with rfl | hm
      · rcases List.mem_append.1 hx with hx2 | hx2
        · exact hix (k0, ids0) (List.mem_cons_self _ _) x hx2
        · simp at hx2
          omega
      · exact hix p (List.mem_cons_of_mem _ hm) x hx
    · intro p hp x hx
      simp only [idxAppend, if_neg h0] at hp
      rcases List.mem_cons.1 hp with rfl | hm
      · exact hix (k0, ids0) (List.mem_cons_self _ _) x hx
      · exact ih (fun r hr => hix r (List.mem_cons_of_mem _ hr)) p hm x hx

theorem idxFoldl_bound (kws : List String) (docId n : Nat) (hd : docId < n) :
    ∀ ix : KwIndex, (∀ p ∈ ix, ∀ x ∈ p.2, x < n) →
      ∀ p ∈ kws.foldl (fun ix kw => idxAppend ix (pyLower kw) docId) ix,
        ∀ x ∈ p.2, x < n := by
  induction kws with
  | nil => intro ix hix; exact hix
  | cons kw rest ih =>
    intro ix hix
    simp only [List.foldl_cons]
    exact ih _ (idxAppend_bound ix (pyLower kw) docId n hix hd)

theorem stateExtends_refl (st : ProcState) : stateExtends st st :=
  ⟨⟨[], by simp⟩, idxExtends_refl _⟩

theorem stateExtends_trans (a b c : ProcState)
    (h1 : stateExtends a b) (h2 : stateExtends b c) : stateExtends a c := by
  refine ⟨?_, idxExtends_trans _ _ _ h1.2 h2.2⟩
  rcases h1.1 with ⟨t1, ht1⟩
  rcases h2.1 with ⟨t2, ht2⟩
  exact ⟨t1 ++ t2, by rw [ht2, ht1, List.append_assoc]⟩

theorem get_append_singleton_ids (docs : List Document) (doc : Document)
    (hids : ∀ i : Fin docs.length, (docs.get i).id = i.1) (hdoc : doc.id = docs.length) :
    ∀ i : Fin (docs ++ [doc]).length, ((docs ++ [doc]).get i).id = i.1 := by
  intro i
  have hi : i.1 < docs.length + 1 := by simpa using i.2
  rcases Nat.lt_or_ge i.1 docs.length with hlt | hge
  · have hg : (docs ++ [doc]).get i = docs.get ⟨i.1, hlt⟩ := by
      simp [List.get_eq_getElem, List.getElem_append_left hlt]
    rw [hg]
    exact hids ⟨i.1, hlt⟩
  · have hieq : i.1 = docs.length := by omega
    have hg : (docs ++ [doc]).get i = doc := by
      rw [List.get_eq_getElem]
      exact List.getElem_concat_length docs doc i.1 hieq i.2
    rw [hg, hdoc, hieq]

theorem processOne_extends (reader : String → String → Except String String)
    (st : ProcState) (res : BatchResults) (path : String) :
    stateExtends st (processOne reader st res path).1 := by
  cases hx : extractText reader path with
  | error e =>
    simp only [processOne, hx]
    exact stateExtends_refl st
  | ok text =>
    simp only [processOne, hx]
    exact ⟨⟨_, rfl⟩, idxExtends_foldl _ _ _⟩

theorem processOne_wf (reader : String → String → Except String String)
    (st : ProcState) (res : BatchResults) (path : String) (hwf : wfState st) :
    wfState (processOne reader st res path).1 := by
  cases hx : extractText reader path with
  | error e => simpa only [processOne, hx] using hwf
  | ok text =>
    simp only [processOne, hx]
    constructor
    · exact get_append_singleton_ids st.documents _ hwf.1 rfl
    · intro p hp x hx2
      have hb := idxFoldl_bound (extractKeywords text) st.documents.length
        (st.documents.length + 1) (by omega) st.keywordIndex
        (fun r hr x hx3 => Nat.lt_succ_of_lt (hwf.2 r hr x hx3)) p hp x hx2
      simpa using hb

theorem batch_fold_wf (reader : String → String → Except String String) :
    ∀ (paths : List String) (st : ProcState) (res : BatchResults), wfState st →
      wfState ((paths.foldl (fun acc p => processOne reader acc.1 acc.2 p) (st, res)).1) ∧
      stateExtends st
        ((paths.foldl (fun acc p => processOne reader acc.1 acc.2 p) (st, res)).1) := by
  intro paths
  induction paths with
  | nil => intro st res hwf; exact ⟨hwf, stateExtends_refl st⟩
  | cons p ps ih =>
    intro st res hwf
    simp only [List.foldl_cons]
    have hstep_wf := processOne_wf reader st res p hwf
    have hstep_ext := processOne_extends reader st res p
    have h := ih (processOne reader st res p).1 (processOne reader st res p).2 hstep_wf
    rw [Prod.mk.eta] at h
    exact ⟨h.1, stateExtends_trans _ _ _ hstep_ext h.2⟩

/-- Claim C9: starting from a well-formed state, ingestion preserves
    well-formedness (every posted id is a valid index and every document
    carries its position as id), only appends to the document list, only
    appends to each existing posting list, and every successful single-file
    ingestion appends one document whose id equals the number of documents
    stored before it — also on re-ingestion of an already stored file, which
    therefore creates a fresh id rather than deduplicating. -/
theorem claim9_ingestion_invariants (reader : String → String → Except String String)
    (st : ProcState) (paths : List String) (hwf : wfState st) :
    wfState (processDocuments reader st paths).1 ∧
    (processDocuments reader st paths).1.documents.take st.documents.length
      = st.documents ∧
    idxExtends st.keywordIndex (processDocuments reader st paths).1.keywordIndex ∧
    (∀ st2 res2 path text, extractText reader path = Except.ok text →
      (processOne reader st2 res2 path).1.documents.map Document.id
        = st2.documents.map Document.id ++ [st2.documents.length]) := by
  have hP : (processDocuments reader st paths).1
      = (paths.foldl (fun acc p => processOne reader acc.1 acc.2 p)
          (st, emptyBatchResults)).1 := rfl
  have hb := batch_fold_wf reader paths st emptyBatchResults hwf
  refine ⟨by rw [hP]; exact hb.1, ?_, by rw [hP]; exact hb.2.2, ?_⟩
  · rw [hP]
    rcases hb.2.1 with ⟨tail, ht⟩
    rw [ht]
    exact List.take_left _ _
  · intro st2 res2 path text hx
    simp [processOne, hx]

/-- Witness for claim C9: the invariants instantiated at the empty state and
    two example files, and the fresh-id equation at a re-ingested file. -/
theorem claim9_ingestion_invariants_witness :
    wfState (processDocuments exReader emptyState ["a.txt", "b.txt"]).1 ∧
    (processDocuments exReader emptyState ["a.txt", "b.txt"]).1.documents.take
        emptyState.documents.length = emptyState.documents ∧
    (processOne exReader exState emptyBatchResults "a.txt").1.documents.map Document.id
      = exState.documents.map Document.id ++ [exState.documents.length] := by
  have h := claim9_ingestion_invariants exReader emptyState ["a.txt", "b.txt"]
    ⟨by intro i; exact absurd i.2 (by simp [emptyState]), by intro p hp; cases hp⟩
  have h2 := claim9_ingestion_invariants exReader exState [] ⟨by decide, by decide⟩
  exact ⟨h.1, h.2.1, h2.2.2.2 exState emptyBatchResults "a.txt" "alpha" rfl⟩

/-- Claim C1 (modelled from the spec, since the get and set methods of
    SmartCache are absent from the source): for every cache content, key,
    value and positive TTL, a set followed by a get at the same instant
    returns the value, and a get at or after the expiry instant is a miss. -/
theorem claim1_cache_roundtrip (α : Type) (m : CacheMap α) (now : Nat) (k : String)
    (v : α) (t : Nat) (ht : 0 < t) :
    cacheGet (cacheSet m now k v (some t)) now k = some v ∧
    (∀ later, now + t ≤ later → cacheGet (cacheSet m now k v (some t)) later k = none) := by
  constructor
  · simp [cacheGet, cacheSet, List.find?]
    omega
  · intro later hlater
    simp [cacheGet, cacheSet, List.find?]
    omega

/-- Witness for claim C1: a concrete round-trip on the empty cache. -/
theorem claim1_cache_roundtrip_witness :
    cacheGet (cacheSet ([] : CacheMap Nat) 10 "k" 7 (some 5)) 10 "k" = some 7 ∧
    cacheGet (cacheSet ([] : CacheMap Nat) 10 "k" 7 (some 5)) 15 "k" = none := by
  have h := claim1_cache_roundtrip Nat [] 10 "k" 7 5 (by omega)
  exact ⟨h.1, h.2 15 (by omega)⟩

/-- Claim C8: the entry point is a total function of the query and the
    handler outcomes (the try and except of the source is the match on the
    oracles, so no fault propagates); when no handler raises, the result
    keeps the classified query type and carries the elapsed time rounded to
    three decimals in its performance field; when a handler raises, the
    result is the degraded dict with query type unknown, an error message,
    and no performance field. -/
theorem claim8_process_query_contract (δ : Type)
    (sqlH : String → Except String (SqlHRes δ))
    (docH : String → Except String DocHRes)
    (startT endT : ℚ) (q : String) :
    (processQuery sqlH docH startT endT q).query = q ∧
    (queryFaults sqlH docH q = false →
      (processQuery sqlH docH startT endT q).queryType = classifyQuery q ∧
      (processQuery sqlH docH startT endT q).responseTime
        = some (round3 (endT - startT))) ∧
    (queryFaults sqlH docH q = true →
      (processQuery sqlH docH startT endT q).queryType = "unknown" ∧
      (∃ e, (processQuery sqlH docH startT endT q).errorMsg = some e) ∧
      (processQuery sqlH docH startT endT q).responseTime = none) := by
  unfold processQuery queryFaults
  by_cases h1 : classifyQuery q = "sql"
  · cases hs : sqlH q with
    | error e => simp [h1, hs, isErr]
    | ok r => simp [h1, hs, isErr]
  · by_cases h2 : classifyQuery q = "document"
    · cases hd : docH q with
      | error e => simp [h1, h2, hd, isErr]
      | ok dr => simp [h1, h2, hd, isErr]
    · by_cases h3 : classifyQuery q = "hybrid"
      · cases hs : sqlH q with
        | error e => simp [h1, h2, h3, hs, isErr]
        | ok sr =>
          cases hd : docH q with
          | error e => simp [h1, h2, h3, hs, hd, isErr]
          | ok dr => simp [h1, h2, h3, hs, hd, isErr]
      · simp [h1, h2, h3, isErr]

/-- Witness for claim C8: a raising SQL handler yields the degraded result
    and a returning one yields the timed result, at a concrete query routed
    to the SQL path. -/
theorem claim8_process_query_contract_witness :
    (processQuery (fun _ => Except.error "boom")
        (fun _ => Except.ok ([], 0)) 0 1 "count rows" : QueryResult Nat).queryType
      = "unknown" ∧
    (∃ e, (processQuery (fun _ => Except.error "boom")
        (fun _ => Except.ok ([], 0)) 0 1 "count rows" : QueryResult Nat).errorMsg
      = some e) ∧
    (processQuery (fun _ => Except.ok (SqlHRes.res "SELECT 1" 0 0))
        (fun _ => Except.ok ([], 0)) 0 1 "count rows" : QueryResult Nat).responseTime
      = some (round3 (1 - 0)) := by
  have h1 := claim8_process_query_contract Nat (fun _ => Except.error "boom")
    (fun _ => Except.ok ([], 0)) 0 1 "count rows"
  have h2 := claim8_process_query_contract Nat
    (fun _ => Except.ok (SqlHRes.res "SELECT 1" 0 0))
    (fun _ => Except.ok ([], 0)) 0 1 "count rows"
  exact ⟨(h1.2.2 (by decide)).1, (h1.2.2 (by decide)).2.1, (h2.2.1 (by decide)).2⟩

end NLPQuery
